import Mathlib

/-!
Verification of the migration helper script `scripts/convert-to-retry.py`.

The script has two operations:

* `convert_file`: reads a file's text; if the marker substring `withRetry`
  is absent, performs `re.sub` with the literal pattern
  `import { supabase } from '@/lib/supabase/client';` and replacement
  `\1\nimport { withRetry } from '@/lib/supabase/retry';` (i.e. it inserts
  a fixed line after every occurrence of the import line); counts
  occurrences of the literal `Promise.race` in the resulting text; writes
  the file back only when the text changed, returning whether it wrote.

* `main`: checks that the fixed directory `services/supabase` exists
  (exits with status 1 otherwise), lists the `*.ts` files in it,
  runs `convert_file` on each, and reports the number of files found and
  the number actually modified.

File contents are modelled as `List Char`.  `re.sub` with a literal
pattern (the braces in the pattern are not a valid quantifier, so Python's
`re` treats them literally) and a replacement of the form
"matched text + suffix" is modelled by `insertAfterAll`, a left-to-right
non-overlapping scan; `len(re.findall(...))` for a literal pattern is
modelled by `countOccurrences`, the same scan counting matches.  Both are
defined with an explicit fuel argument (the scan jumps over each match)
so that they are structurally recursive and evaluate by `decide`.
-/

set_option maxRecDepth 8000

/-- The marker substring `withRetry` whose absence triggers the import insertion. -/
def markerStr : List Char := "withRetry".toList

/-- The literal import line matched by the script's `import_pattern` regex. -/
def importLine : List Char := "import \x7b supabase \x7d from \x27@/lib/supabase/client\x27;".toList

/-- The text inserted after each match: a newline plus the `withRetry` import line. -/
def retryImport : List Char := "\nimport \x7b withRetry \x7d from \x27@/lib/supabase/retry\x27;".toList

/-- The literal substring counted by `re.findall(r'Promise\.race', content)`. -/
def promiseRace : List Char := "Promise.race".toList

/-- Fuelled left-to-right non-overlapping scan counting occurrences of `pat`
(the model of `len(re.findall(pat_literal, l))`). -/
def countF (pat : List Char) : Nat → List Char → Nat
  | _, [] => 0
  | 0, _ :: _ => 0
  | f + 1, c :: rest =>
    if pat <+: c :: rest then
      countF pat f (rest.drop (pat.length - 1)) + 1
    else
      countF pat f rest

/-- Number of non-overlapping occurrences of `pat` in `l`, scanning left to right. -/
def countOccurrences (pat l : List Char) : Nat := countF pat l.length l

/-- Fuelled left-to-right scan inserting `ins` after every non-overlapping
occurrence of `pat` (the model of `re.sub(pat_literal, r"\1" + ins, l)`). -/
def insF (pat ins : List Char) : Nat → List Char → List Char
  | _, [] => []
  | 0, l => l
  | f + 1, c :: rest =>
    if pat <+: c :: rest then
      pat ++ ins ++ insF pat ins f (rest.drop (pat.length - 1))
    else
      c :: insF pat ins f rest

/-- Insert `ins` after every non-overlapping occurrence of `pat` in `l`. -/
def insertAfterAll (pat ins l : List Char) : List Char := insF pat ins l.length l

lemma countF_congr (pat : List Char) :
    ∀ (f g : Nat) (l : List Char), l.length ≤ f → l.length ≤ g →
      countF pat f l = countF pat g l := by
  intro f
  induction f with
  | zero =>
    intro g l hf _
    have hl : l = [] := by cases l with
      | nil => rfl
      | cons c rest => simp at hf
    subst hl
    cases g <;> rfl
  | succ f ih =>
    intro g l hf hg
    cases l with
    | nil => cases g <;> rfl
    | cons c rest =>
      cases g with
      | zero => simp at hg
      | succ g =>
        simp only [countF]
        have hrest : rest.length ≤ f := by
          simp only [List.length_cons] at hf; omega
        have hrest' : rest.length ≤ g := by
          simp only [List.length_cons] at hg; omega
        have hdrop : (rest.drop (pat.length - 1)).length ≤ rest.length := by
          rw [List.length_drop]; omega
        by_cases h : pat <+: c :: rest
        · rw [if_pos h, if_pos h, ih g _ (le_trans hdrop hrest) (le_trans hdrop hrest')]
        · rw [if_neg h, if_neg h, ih g rest hrest hrest']

lemma insF_congr (pat ins : List Char) :
    ∀ (f g : Nat) (l : List Char), l.length ≤ f → l.length ≤ g →
      insF pat ins f l = insF pat ins g l := by
  intro f
  induction f with
  | zero =>
    intro g l hf _
    have hl : l = [] := by cases l with
      | nil => rfl
      | cons c rest => simp at hf
    subst hl
    cases g <;> rfl
  | succ f ih =>
    intro g l hf hg
    cases l with
    | nil => cases g <;> rfl
    | cons c rest =>
      cases g with
      | zero => simp at hg
      | succ g =>
        simp only [insF]
        have hrest : rest.length ≤ f := by
          simp only [List.length_cons] at hf; omega
        have hrest' : rest.length ≤ g := by
          simp only [List.length_cons] at hg; omega
        have hdrop : (rest.drop (pat.length - 1)).length ≤ rest.length := by
          rw [List.length_drop]; omega
        by_cases h : pat <+: c :: rest
        · rw [if_pos h, if_pos h, ih g _ (le_trans hdrop hrest) (le_trans hdrop hrest')]
        · rw [if_neg h, if_neg h, ih g rest hrest hrest']

lemma countOcc_nil (pat : List Char) : countOccurrences pat [] = 0 := rfl

lemma countOcc_cons_pos (pat : List Char) (c : Char) (rest : List Char)
    (h : pat <+: c :: rest) :
    countOccurrences pat (c :: rest) =
      countOccurrences pat (rest.drop (pat.length - 1)) + 1 := by
  show countF pat (rest.length + 1) (c :: rest) = _
  simp only [countF, if_pos h]
  congr 1
  apply countF_congr
  · rw [List.length_drop]; omega
  · exact le_refl _

lemma countOcc_cons_neg (pat : List Char) (c : Char) (rest : List Char)
    (h : ¬ pat <+: c :: rest) :
    countOccurrences pat (c :: rest) = countOccurrences pat rest := by
  show countF pat (rest.length + 1) (c :: rest) = _
  simp only [countF, if_neg h]
  rfl

lemma insAll_nil (pat ins : List Char) : insertAfterAll pat ins [] = [] := rfl

lemma insAll_cons_pos (pat ins : List Char) (c : Char) (rest : List Char)
    (h : pat <+: c :: rest) :
    insertAfterAll pat ins (c :: rest) =
      pat ++ ins ++ insertAfterAll pat ins (rest.drop (pat.length - 1)) := by
  show insF pat ins (rest.length + 1) (c :: rest) = _
  simp only [insF, if_pos h]
  rw [insF_congr pat ins rest.length (rest.drop (pat.length - 1)).length
    (rest.drop (pat.length - 1)) (by rw [List.length_drop]; omega) (le_refl _)]
  rfl

lemma insAll_cons_neg (pat ins : List Char) (c : Char) (rest : List Char)
    (h : ¬ pat <+: c :: rest) :
    insertAfterAll pat ins (c :: rest) = c :: insertAfterAll pat ins rest := by
  show insF pat ins (rest.length + 1) (c :: rest) = _
  simp only [insF, if_neg h]
  rfl

lemma pfx_mono_right (p u v : List Char) (h : p <+: u) : p <+: u ++ v := by
  obtain ⟨t, ht⟩ := h
  exact ⟨t ++ v, by rw [← List.append_assoc, ht]⟩

lemma pfx_of_append_of_le (p : List Char) :
    ∀ (u v : List Char), p <+: u ++ v → p.length ≤ u.length → p <+: u := by
  induction p with
  | nil => intro u v _ _; exact ⟨u, rfl⟩
  | cons a p ih =>
    intro u v h hlen
    cases u with
    | nil => simp at hlen
    | cons b u =>
      obtain ⟨t, ht⟩ := h
      simp only [List.cons_append] at ht
      injection ht with hab htail
      have hp : p <+: u ++ v := by
        refine ⟨t, ?_⟩
        rw [htail]
      simp only [List.length_cons] at hlen
      obtain ⟨t', ht'⟩ := ih u v hp (by omega)
      exact ⟨t', by rw [List.cons_append, ht', hab]⟩

lemma sfx_of_append_of_le (s u v : List Char) (h : s <:+ u ++ v)
    (hlen : s.length ≤ v.length) : s <:+ v := by
  obtain ⟨t, ht⟩ := h
  have hlt : u.length ≤ t.length := by
    have := congrArg List.length ht
    simp only [List.length_append] at this
    omega
  refine ⟨t.drop u.length, ?_⟩
  have h1 : (t ++ s).drop u.length = t.drop u.length ++ s :=
    List.drop_append_of_le_length hlt
  have h2 : (u ++ v).drop u.length = v := List.drop_left u v
  rw [← h1, ht, h2]

lemma mem_of_sfx_cons (w : List Char) (a : Char) (s : List Char)
    (h : (a :: s) <:+ w) : a ∈ w := by
  obtain ⟨t, ht⟩ := h
  rw [← ht]
  simp

/-- Complete characterization of the `re.sub` scan: the input splits into
blocks each ending with a full occurrence of `pat`, followed by a remainder,
and the output is the same blocks with `ins` appended to each; the number of
blocks is the reported occurrence count. -/
lemma insertAfterAll_spec (pat ins : List Char) (hpat : pat ≠ []) :
    ∀ (n : Nat) (l : List Char), l.length ≤ n →
      ∃ (A : List (List Char)) (z : List Char),
        l = (A.map (fun x => x ++ pat)).flatten ++ z ∧
        insertAfterAll pat ins l = (A.map (fun x => x ++ pat ++ ins)).flatten ++ z ∧
        countOccurrences pat l = A.length := by
  intro n
  induction n with
  | zero =>
    intro l hl
    have : l = [] := by cases l with
      | nil => rfl
      | cons c rest => simp at hl
    subst this
    exact ⟨[], [], by simp, by simp [insAll_nil], rfl⟩
  | succ n ih =>
    intro l hl
    cases l with
    | nil => exact ⟨[], [], by simp, by simp [insAll_nil], rfl⟩
    | cons c rest =>
      by_cases h : pat <+: c :: rest
      · obtain ⟨t, ht⟩ := h
        cases pat with
        | nil => exact absurd rfl hpat
        | cons p ps =>
          simp only [List.cons_append] at ht
          injection ht with hpc htail
          have hdrop : rest.drop ((p :: ps).length - 1) = t := by
            have : rest = ps ++ t := htail.symm
            rw [this]
            simp only [List.length_cons, Nat.add_sub_cancel]
            exact List.drop_left ps t
          have htlen : t.length ≤ n := by
            have := congrArg List.length htail
            simp only [List.length_append, List.length_cons] at this hl
            omega
          obtain ⟨A, z, h1, h2, h3⟩ := ih t htlen
          refine ⟨[] :: A, z, ?_, ?_, ?_⟩
          · simp only [List.map_cons, List.flatten_cons, List.nil_append]
            rw [List.append_assoc, ← h1, ← htail, hpc]
            rfl
          · rw [insAll_cons_pos _ _ _ _ ⟨t, by rw [List.cons_append, hpc, htail]⟩,
              hdrop, h2]
            simp only [List.map_cons, List.flatten_cons, List.nil_append]
            simp [List.append_assoc]
          · rw [countOcc_cons_pos _ _ _ ⟨t, by rw [List.cons_append, hpc, htail]⟩,
              hdrop, h3]
            simp
      · have hrest : rest.length ≤ n := by
          simp only [List.length_cons] at hl; omega
        obtain ⟨A, z, h1, h2, h3⟩ := ih rest hrest
        cases A with
        | nil =>
          simp only [List.map_nil, List.flatten_nil, List.nil_append] at h1 h2
          refine ⟨[], c :: z, ?_, ?_, ?_⟩
          · simp [← h1]
          · rw [insAll_cons_neg _ _ _ _ h, h2]
            simp [← h1]
          · rw [countOcc_cons_neg _ _ _ h, h3]
        | cons x A =>
          simp only [List.map_cons, List.flatten_cons] at h1 h2
          refine ⟨(c :: x) :: A, z, ?_, ?_, ?_⟩
          · simp only [List.map_cons, List.flatten_cons, List.cons_append]
            rw [h1]
          · rw [insAll_cons_neg _ _ _ _ h, h2]
            simp [List.append_assoc]
          · rw [countOcc_cons_neg _ _ _ h, h3]
            simp

/-- The scan count distributes over an append boundary provided no occurrence
of `pat` can start inside `u` and spill over into `v`. -/
lemma countOcc_append_split (pat : List Char) :
    ∀ (n : Nat) (u v : List Char), u.length ≤ n →
      (∀ s, s <:+ u → 0 < s.length → s.length < pat.length → ¬ pat <+: s ++ v) →
      countOccurrences pat (u ++ v) =
        countOccurrences pat u + countOccurrences pat v := by
  intro n
  induction n with
  | zero =>
    intro u v hu _
    have : u = [] := by cases u with
      | nil => rfl
      | cons c rest => simp at hu
    subst this
    simp [countOcc_nil]
  | succ n ih =>
    intro u v hu hcross
    cases u with
    | nil => simp [countOcc_nil]
    | cons c u =>
      have hu' : u.length ≤ n := by
        simp only [List.length_cons] at hu; omega
      by_cases h : pat <+: c :: (u ++ v)
      · have hlen : pat.length ≤ (c :: u).length := by
          by_contra hlt
          exact hcross (c :: u) ⟨[], rfl⟩ (by simp) (by omega)
            (by rw [List.cons_append]; exact h)
        have hupfx : pat <+: c :: u := by
          have := pfx_of_append_of_le pat (c :: u) v (by rw [List.cons_append]; exact h) hlen
          exact this
        have hk : pat.length - 1 ≤ u.length := by
          simp only [List.length_cons] at hlen; omega
        have hdropapp : (u ++ v).drop (pat.length - 1) =
            u.drop (pat.length - 1) ++ v := List.drop_append_of_le_length hk
        rw [show (c :: u) ++ v = c :: (u ++ v) from rfl,
          countOcc_cons_pos _ _ _ h, countOcc_cons_pos _ _ _ hupfx, hdropapp]
        have hdsub : ∀ s : List Char, s <:+ u.drop (pat.length - 1) → s <:+ c :: u := by
          intro s hs
          exact (hs.trans (List.drop_suffix _ u)).trans ⟨[c], rfl⟩
        rw [ih (u.drop (pat.length - 1)) v
          (le_trans (by rw [List.length_drop]; omega) hu')
          (fun s hs h1 h2 => hcross s (hdsub s hs) h1 h2)]
        omega
      · have hnpfx : ¬ pat <+: c :: u := by
          intro hc
          exact h (by
            have := pfx_mono_right pat (c :: u) v hc
            rw [List.cons_append] at this
            exact this)
        have hsub : ∀ s : List Char, s <:+ u → s <:+ c :: u := by
          intro s hs
          exact hs.trans ⟨[c], rfl⟩
        rw [show (c :: u) ++ v = c :: (u ++ v) from rfl,
          countOcc_cons_neg _ _ _ h, countOcc_cons_neg _ _ _ hnpfx,
          ih u v hu' (fun s hs h1 h2 => hcross s (hsub s hs) h1 h2)]

/-- No occurrence of `Promise.race` can start inside a string that does not
contain the character `P` at all. -/
lemma no_race_start (w : List Char) (hw : 'P' ∉ w) :
    ∀ (s v : List Char), s <:+ w → 0 < s.length → ¬ promiseRace <+: s ++ v := by
  intro s v hs hpos hpre
  cases s with
  | nil => simp at hpos
  | cons a s =>
    have hP : promiseRace = 'P' :: "romise.race".toList := by decide
    rw [hP] at hpre
    obtain ⟨t, ht⟩ := hpre
    simp only [List.cons_append] at ht
    injection ht with ha _
    exact hw (by rw [ha]; exact mem_of_sfx_cons w a s hs)

lemma race_len : promiseRace.length = 12 := by decide

lemma importLine_len : importLine.length = 49 := by decide

/-- The `Promise.race` count splits cleanly right after a full copy of
the import line, because the tail of the import line contains no `P`. -/
lemma count_race_after_importLine (x v : List Char) :
    countOccurrences promiseRace ((x ++ importLine) ++ v) =
      countOccurrences promiseRace (x ++ importLine) +
        countOccurrences promiseRace v := by
  apply countOcc_append_split promiseRace (x ++ importLine).length _ _ (le_refl _)
  intro s hs hpos hlen
  apply no_race_start importLine (by decide) s v _ hpos
  apply sfx_of_append_of_le s x importLine hs
  rw [race_len] at hlen
  rw [importLine_len]
  omega

/-- The `Promise.race` count is unaffected by a leading copy of the inserted
retry-import line: the line contains no `P`, so no occurrence can start in it. -/
lemma count_race_after_retryImport (v : List Char) :
    countOccurrences promiseRace (retryImport ++ v) =
      countOccurrences promiseRace v := by
  rw [countOcc_append_split promiseRace retryImport.length retryImport v
    (le_refl _) (fun s hs h1 _ => no_race_start retryImport (by decide) s v hs h1)]
  have h0 : countOccurrences promiseRace retryImport = 0 := by decide
  rw [h0]
  omega

/-- Replacing each block `x ++ importLine` by `x ++ importLine ++ retryImport`
does not change the number of `Promise.race` occurrences. -/
lemma count_race_join (A : List (List Char)) (z : List Char) :
    countOccurrences promiseRace ((A.map (fun x => x ++ importLine ++ retryImport)).flatten ++ z) =
      countOccurrences promiseRace ((A.map (fun x => x ++ importLine)).flatten ++ z) := by
  induction A with
  | nil => rfl
  | cons x A ih =>
    simp only [List.map_cons, List.flatten_cons]
    rw [List.append_assoc (x ++ importLine ++ retryImport),
      List.append_assoc (x ++ importLine) retryImport,
      count_race_after_importLine, count_race_after_retryImport, ih,
      ← count_race_after_importLine, ← List.append_assoc]

/-- Inserting the retry-import line after every occurrence of the import line
leaves the `Promise.race` occurrence count unchanged. -/
lemma count_race_insertAfterAll (content : List Char) :
    countOccurrences promiseRace (insertAfterAll importLine retryImport content) =
      countOccurrences promiseRace content := by
  obtain ⟨A, z, h1, h2, _⟩ :=
    insertAfterAll_spec importLine retryImport (by decide) content.length content (le_refl _)
  rw [h2]
  conv_rhs => rw [h1]
  exact count_race_join A z

/-- If the pattern does not occur in `l` as a substring, the insertion scan
leaves `l` unchanged. -/
lemma insAll_id_of_no_match (pat ins : List Char) :
    ∀ l : List Char, ¬ pat <:+: l → insertAfterAll pat ins l = l := by
  intro l
  induction l with
  | nil => intro _; rfl
  | cons c rest ih =>
    intro h
    have hnp : ¬ pat <+: c :: rest := by
      intro hp
      obtain ⟨t, ht⟩ := hp
      exact h ⟨[], t, by rw [List.nil_append, ht]⟩
    have hrest : ¬ pat <:+: rest := by
      intro hi
      obtain ⟨s, t, hst⟩ := hi
      exact h ⟨c :: s, t, by rw [← hst]; rfl⟩
    rw [insAll_cons_neg _ _ _ _ hnp, ih hrest]


/-- Result of one `convert_file` run on a file whose text is `content`:
the processed text, whether the success message for the import insertion was
printed, the reported `Promise.race` count, and whether the file was written
back (which is also the function's boolean return value). -/
structure ConvertResult where
  newContent : List Char
  printedAdded : Bool
  raceCount : Nat
  modified : Bool
  deriving DecidableEq

/-- The content transformation of `convert_file`: when the marker substring
`withRetry` is absent, `re.sub` inserts the retry-import line after every
occurrence of the supabase import line; otherwise the text is untouched. -/
def convertContent (content : List Char) : List Char :=
  if ¬ markerStr <:+: content then insertAfterAll importLine retryImport content
  else content

/-- Model of `convert_file` on the file's text.  The race count is computed
(as in the script) on the post-substitution text; the file is rewritten, and
`True` returned, exactly when the text changed. -/
def convert_file (content : List Char) : ConvertResult :=
  { newContent := convertContent content
    printedAdded := decide (¬ markerStr <:+: content)
    raceCount := countOccurrences promiseRace (convertContent content)
    modified := decide (convertContent content ≠ content) }

/-- The file's content after `convert_file` runs: rewritten only when the
processed text differs from the original. -/
def fileAfter (content : List Char) : List Char :=
  if (convert_file content).modified then (convert_file content).newContent
  else content

/-- A directory entry: file name and file content. -/
structure TsFile where
  name : List Char
  content : List Char
  deriving DecidableEq

/-- The fixed extension used by `services_dir.glob('*.ts')`. -/
def tsExt : List Char := ".ts".toList

/-- The files selected by `glob('*.ts')`: names ending in `.ts`, non-recursive. -/
def tsFilter (files : List TsFile) : List TsFile :=
  files.filter (fun f => tsExt.isSuffixOf f.name)

/-- Names printed by the loop, one `Converting: ...` line per processed file. -/
def processedNames : List TsFile → List (List Char)
  | [] => []
  | f :: rest => f.name :: processedNames rest

/-- The loop's `converted_count` accumulator: one per file whose conversion
returned `True`. -/
def convertedCount : List TsFile → Nat
  | [] => 0
  | f :: rest =>
    (if (convert_file f.content).modified then 1 else 0) + convertedCount rest

/-- The file writes performed by the loop, in order: each modified file is
rewritten with its processed text. -/
def writesOf : List TsFile → List TsFile
  | [] => []
  | f :: rest =>
    (if (convert_file f.content).modified then
      [⟨f.name, (convert_file f.content).newContent⟩] else []) ++ writesOf rest

/-- The fixed relative directory `services/supabase` used by `main`. -/
def dirPath : List Char := "services/supabase".toList

/-- The message printed when the directory is missing. -/
def errorText : List Char := "Error: services/supabase not found".toList

/-- Observable outcome of one `main` run. -/
structure MainResult where
  exitCode : Nat
  errorMsg : Option (List Char)
  processed : List (List Char)
  found : Nat
  modified : Nat
  writes : List TsFile

/-- Model of the script function `main` (that name is reserved by Lean, hence `mainRun`).  The input is `none` when the directory
`services/supabase` does not exist, otherwise the directory's flat file
listing.  A missing directory prints the error and exits with status 1
before touching any file; otherwise the `*.ts` files are processed in order
and the summary counts are reported. -/
def mainRun : Option (List TsFile) → MainResult
  | none =>
    { exitCode := 1, errorMsg := some errorText, processed := [],
      found := 0, modified := 0, writes := [] }
  | some files =>
    { exitCode := 0
      errorMsg := none
      processed := processedNames (tsFilter files)
      found := (tsFilter files).length
      modified := convertedCount (tsFilter files)
      writes := writesOf (tsFilter files) }

lemma modified_false_of_eq (content : List Char)
    (h : convertContent content = content) :
    (convert_file content).modified = false := by
  simp [convert_file, h]

lemma fileAfter_eq (content : List Char) :
    fileAfter content = convertContent content := by
  by_cases h : convertContent content = content <;>
    simp [fileAfter, convert_file, h]

lemma sandwich_contains (m w a b : List Char) (h : m <:+: w) :
    m <:+: (a ++ w) ++ b := by
  obtain ⟨s, t, hst⟩ := h
  refine ⟨a ++ s, t ++ b, ?_⟩
  rw [← hst]
  simp [List.append_assoc]

lemma convertContent_idem (content : List Char) :
    convertContent (convertContent content) = convertContent content := by
  by_cases hm : markerStr <:+: content
  · have h : convertContent content = content := by
      rw [convertContent, if_neg (not_not_intro hm)]
    rw [h]
    exact h
  · have hcc : convertContent content = insertAfterAll importLine retryImport content := by
      rw [convertContent, if_pos hm]
    obtain ⟨A, z, g1, g2, _⟩ :=
      insertAfterAll_spec importLine retryImport (by decide) content.length content (le_refl _)
    cases A with
    | nil =>
      simp only [List.map_nil, List.flatten_nil, List.nil_append] at g1 g2
      have h : convertContent content = content := by rw [hcc, g2, ← g1]
      rw [h]
      exact h
    | cons x A =>
      have hmark : markerStr <:+: convertContent content := by
        rw [hcc, g2]
        simp only [List.map_cons, List.flatten_cons]
        rw [List.append_assoc]
        exact sandwich_contains markerStr retryImport (x ++ importLine) _ (by decide)
      rw [convertContent, if_neg (not_not_intro hmark)]

lemma processedNames_eq_map :
    ∀ l : List TsFile, processedNames l = l.map (fun f => f.name) := by
  intro l
  induction l with
  | nil => rfl
  | cons f rest ih => simp [processedNames, ih]

lemma convertedCount_eq_filter :
    ∀ l : List TsFile,
      convertedCount l =
        (l.filter (fun f => (convert_file f.content).modified)).length := by
  intro l
  induction l with
  | nil => rfl
  | cons f rest ih =>
    by_cases h : (convert_file f.content).modified <;>
      simp [convertedCount, List.filter_cons, h, ih] <;> omega

lemma convertedCount_append (a b : List TsFile) :
    convertedCount (a ++ b) = convertedCount a + convertedCount b := by
  induction a with
  | nil => simp [convertedCount]
  | cons f rest ih => simp [convertedCount, ih]; omega

lemma writesOf_append (a b : List TsFile) :
    writesOf (a ++ b) = writesOf a ++ writesOf b := by
  induction a with
  | nil => simp [writesOf]
  | cons f rest ih => simp [writesOf, ih]

lemma pieces_len (pat ins : List Char) (z : List Char) :
    ∀ A : List (List Char),
      ((A.map (fun x => x ++ pat ++ ins)).flatten ++ z).length =
        ((A.map (fun x => x ++ pat)).flatten ++ z).length + A.length * ins.length := by
  intro A
  induction A with
  | nil => simp
  | cons x A ih =>
    simp only [List.length_append] at ih
    simp only [List.map_cons, List.flatten_cons, List.length_append, List.length_cons,
      Nat.succ_mul]
    omega

/-- Claim C1 counterexample: on a file consisting of two copies of the import
line (and no `withRetry` marker), `convert_file` does not insert exactly one
new line: the result is two insertions, one after each copy, so its length
exceeds a single insertion's length. -/
theorem c1_two_imports_cex :
    ¬ markerStr <:+: importLine ++ importLine ∧
    importLine <:+: importLine ++ importLine ∧
    (convert_file (importLine ++ importLine)).newContent =
      importLine ++ retryImport ++ importLine ++ retryImport ∧
    (convert_file (importLine ++ importLine)).newContent.length ≠
      (importLine ++ importLine).length + retryImport.length := by
  refine ⟨by decide, by decide, by decide, by decide⟩

/-- Claim C1 (amended): for a file whose content lacks the marker `withRetry`
and contains exactly one occurrence of the supabase import line,
`convert_file` inserts exactly one new line, the fixed retry-import literal,
immediately after that import line, and the file is rewritten with the
resulting content. -/
theorem c1_single_import_insert (content : List Char)
    (hm : ¬ markerStr <:+: content)
    (h1 : countOccurrences importLine content = 1) :
    (∃ a b, content = a ++ importLine ++ b ∧
      (convert_file content).newContent = a ++ importLine ++ retryImport ++ b) ∧
    (convert_file content).modified = true := by
  obtain ⟨A, z, g1, g2, g3⟩ :=
    insertAfterAll_spec importLine retryImport (by decide) content.length content (le_refl _)
  obtain ⟨x, hx⟩ : ∃ x, A = [x] := List.length_eq_one.mp (by rw [← g3, h1])
  subst hx
  simp only [List.map_cons, List.map_nil, List.flatten_cons, List.flatten_nil,
    List.append_nil] at g1 g2
  have hcc : convertContent content = insertAfterAll importLine retryImport content := by
    rw [convertContent, if_pos hm]
  have hne : convertContent content ≠ content := by
    intro heq
    rw [hcc, g2, g1] at heq
    have hl := congrArg List.length heq
    simp only [List.length_append] at hl
    have hr : retryImport.length = 50 := by decide
    omega
  refine ⟨⟨x, z, g1, ?_⟩, ?_⟩
  · show convertContent content = _
    rw [hcc, g2]
  · show decide (convertContent content ≠ content) = true
    exact decide_eq_true hne

/-- Claim C1 witness: the single-line file consisting of exactly the import
line satisfies the amended claim's hypotheses, and the conversion reports a
write. -/
theorem c1_single_import_insert_witness :
    (¬ markerStr <:+: importLine ∧ countOccurrences importLine importLine = 1) ∧
    (convert_file importLine).modified = true :=
  ⟨⟨by decide, by decide⟩, (c1_single_import_insert importLine (by decide) (by decide)).2⟩

/-- Claim C2: the reported `Promise.race` count equals the number of
non-overlapping occurrences of the literal in the file's original content
(the insertion cannot create or destroy an occurrence), including zero, and
the file's resulting content is determined by the content transformation
alone — counting alters nothing. -/
theorem c2_race_count_exact (content : List Char) :
    (convert_file content).raceCount = countOccurrences promiseRace content ∧
    fileAfter content = convertContent content := by
  refine ⟨?_, fileAfter_eq content⟩
  show countOccurrences promiseRace (convertContent content) = _
  rw [convertContent]
  by_cases hm : ¬ markerStr <:+: content
  · rw [if_pos hm]
    exact count_race_insertAfterAll content
  · rw [if_neg hm]

/-- Claim C3: when processing leaves the content unchanged, no write occurs,
`convert_file` returns `False`, and the file contributes neither to the
batch's modified-file count nor to its writes. -/
theorem c3_unchanged_not_written (content name : List Char) (pre post : List TsFile)
    (h : convertContent content = content) :
    (convert_file content).modified = false ∧
    fileAfter content = content ∧
    (mainRun (some (pre ++ ⟨name, content⟩ :: post))).modified =
      (mainRun (some (pre ++ post))).modified ∧
    (mainRun (some (pre ++ ⟨name, content⟩ :: post))).writes =
      (mainRun (some (pre ++ post))).writes := by
  have hmod : (convert_file content).modified = false := modified_false_of_eq content h
  have hts : tsFilter (pre ++ ⟨name, content⟩ :: post) =
      tsFilter pre ++ (if tsExt.isSuffixOf name then
        (⟨name, content⟩ : TsFile) :: tsFilter post else tsFilter post) := by
    simp [tsFilter, List.filter_append, List.filter_cons]
  refine ⟨hmod, by simp [fileAfter, hmod], ?_, ?_⟩
  · show convertedCount (tsFilter (pre ++ ⟨name, content⟩ :: post)) =
      convertedCount (tsFilter (pre ++ post))
    rw [hts]
    by_cases hn : tsExt.isSuffixOf name <;>
      simp [hn, convertedCount_append, convertedCount, hmod, tsFilter,
        List.filter_append]
  · show writesOf (tsFilter (pre ++ ⟨name, content⟩ :: post)) =
      writesOf (tsFilter (pre ++ post))
    rw [hts]
    by_cases hn : tsExt.isSuffixOf name <;>
      simp [hn, writesOf_append, writesOf, hmod, tsFilter, List.filter_append]

/-- Claim C3 witness: a one-line file with no import line is unchanged, not
written, and does not affect the batch summary. -/
theorem c3_unchanged_not_written_witness :
    convertContent ("const x = 1;".toList) = "const x = 1;".toList ∧
    ((convert_file ("const x = 1;".toList)).modified = false ∧
      fileAfter ("const x = 1;".toList) = "const x = 1;".toList ∧
      (mainRun (some ([] ++ ⟨"a.ts".toList, "const x = 1;".toList⟩ :: []))).modified =
        (mainRun (some ([] ++ []))).modified ∧
      (mainRun (some ([] ++ ⟨"a.ts".toList, "const x = 1;".toList⟩ :: []))).writes =
        (mainRun (some ([] ++ []))).writes) :=
  ⟨by decide,
    c3_unchanged_not_written ("const x = 1;".toList) ("a.ts".toList) [] [] (by decide)⟩

/-- Claim C4: a file already containing the marker substring `withRetry` is
left entirely unchanged (in particular its import section) and no write
occurs. -/
theorem c4_marker_present_untouched (content : List Char)
    (h : markerStr <:+: content) :
    (convert_file content).newContent = content ∧
    (convert_file content).modified = false ∧
    fileAfter content = content := by
  have hc : convertContent content = content := by
    rw [convertContent, if_neg (not_not_intro h)]
  have hmod : (convert_file content).modified = false := modified_false_of_eq content hc
  exact ⟨hc, hmod, by simp [fileAfter, hmod]⟩

/-- Claim C4 witness: a file whose whole text is the marker itself. -/
theorem c4_marker_present_untouched_witness :
    markerStr <:+: markerStr ∧
    ((convert_file markerStr).newContent = markerStr ∧
      (convert_file markerStr).modified = false ∧
      fileAfter markerStr = markerStr) :=
  ⟨by decide, c4_marker_present_untouched markerStr (by decide)⟩

/-- Claim C5: with the target directory missing, the batch run prints an
error naming the path `services/supabase` and exits with status 1 having
processed and written no file; when the directory exists the run finishes
with implicit success status 0. -/
theorem c5_missing_dir_exits_one :
    (mainRun none).exitCode = 1 ∧
    (mainRun none).errorMsg = some errorText ∧
    dirPath <:+: errorText ∧
    (mainRun none).processed = [] ∧
    (mainRun none).writes = [] ∧
    ∀ files, (mainRun (some files)).exitCode = 0 :=
  ⟨rfl, rfl, by decide, rfl, rfl, fun _ => rfl⟩

/-- Claim C6: the batch processes exactly the `.ts` files of the directory
listing (in order), and the reported summary is the number of such files and
the number of them whose conversion returned `True`. -/
theorem c6_batch_summary (files : List TsFile) :
    (mainRun (some files)).processed = (tsFilter files).map (fun f => f.name) ∧
    (mainRun (some files)).found = (tsFilter files).length ∧
    (mainRun (some files)).modified =
      ((tsFilter files).filter (fun f => (convert_file f.content).modified)).length := by
  refine ⟨?_, rfl, ?_⟩
  · show processedNames (tsFilter files) = _
    exact processedNames_eq_map _
  · show convertedCount (tsFilter files) = _
    exact convertedCount_eq_filter _

/-- Claim C7: an existing directory with no `.ts` files yields a summary of
zero found and zero modified, exit status 0, and no file activity. -/
theorem c7_no_ts_files (files : List TsFile) (h : tsFilter files = []) :
    (mainRun (some files)).found = 0 ∧
    (mainRun (some files)).modified = 0 ∧
    (mainRun (some files)).exitCode = 0 ∧
    (mainRun (some files)).writes = [] ∧
    (mainRun (some files)).processed = [] := by
  refine ⟨?_, ?_, rfl, ?_, ?_⟩ <;>
    simp [mainRun, h, convertedCount, writesOf, processedNames]

/-- Claim C7 witness: a directory containing only a non-`.ts` file. -/
theorem c7_no_ts_files_witness :
    tsFilter [⟨"notes.md".toList, "hello".toList⟩] = [] ∧
    ((mainRun (some [⟨"notes.md".toList, "hello".toList⟩])).found = 0 ∧
      (mainRun (some [⟨"notes.md".toList, "hello".toList⟩])).modified = 0 ∧
      (mainRun (some [⟨"notes.md".toList, "hello".toList⟩])).exitCode = 0 ∧
      (mainRun (some [⟨"notes.md".toList, "hello".toList⟩])).writes = [] ∧
      (mainRun (some [⟨"notes.md".toList, "hello".toList⟩])).processed = []) :=
  ⟨by decide, c7_no_ts_files [⟨"notes.md".toList, "hello".toList⟩] (by decide)⟩

/-- Claim C8: the content transformation of `convert_file` is idempotent, and
a second run on an already-processed file performs no write and returns
`False`. -/
theorem c8_idempotent (content : List Char) :
    convertContent (convertContent content) = convertContent content ∧
    (convert_file (convertContent content)).modified = false := by
  have key := convertContent_idem content
  exact ⟨key, modified_false_of_eq _ key⟩

/-- Claim C9: a file containing neither the marker nor the import line is
left unchanged and unwritten with return value `False`, yet the success
message for the import insertion is still printed. -/
theorem c9_no_marker_no_import (content : List Char)
    (hm : ¬ markerStr <:+: content)
    (hi : ¬ importLine <:+: content) :
    (convert_file content).newContent = content ∧
    (convert_file content).modified = false ∧
    (convert_file content).printedAdded = true ∧
    fileAfter content = content := by
  have hc : convertContent content = content := by
    rw [convertContent, if_pos hm]
    exact insAll_id_of_no_match _ _ content hi
  have hmod : (convert_file content).modified = false := modified_false_of_eq content hc
  refine ⟨hc, hmod, ?_, by simp [fileAfter, hmod]⟩
  show decide (¬ markerStr <:+: content) = true
  exact decide_eq_true hm

/-- Claim C9 witness: a one-line file with neither marker nor import line. -/
theorem c9_no_marker_no_import_witness :
    (¬ markerStr <:+: "let y = 2;".toList ∧ ¬ importLine <:+: "let y = 2;".toList) ∧
    ((convert_file ("let y = 2;".toList)).newContent = "let y = 2;".toList ∧
      (convert_file ("let y = 2;".toList)).modified = false ∧
      (convert_file ("let y = 2;".toList)).printedAdded = true ∧
      fileAfter ("let y = 2;".toList) = "let y = 2;".toList) :=
  ⟨⟨by decide, by decide⟩,
    c9_no_marker_no_import ("let y = 2;".toList) (by decide) (by decide)⟩

/-- Claim C10: with the marker absent and `N ≥ 1` occurrences of the import
line, the substitution inserts the retry-import line after every one of the
`N` occurrences, growing the content by exactly `N` copies, and the file is
rewritten. -/
theorem c10_inserts_after_every_occurrence (content : List Char) (N : Nat)
    (hm : ¬ markerStr <:+: content)
    (hN : countOccurrences importLine content = N)
    (hpos : 1 ≤ N) :
    (∃ (A : List (List Char)) (z : List Char), A.length = N ∧
      content = (A.map (fun x => x ++ importLine)).flatten ++ z ∧
      (convert_file content).newContent =
        (A.map (fun x => x ++ importLine ++ retryImport)).flatten ++ z) ∧
    (convert_file content).newContent.length =
      content.length + N * retryImport.length ∧
    (convert_file content).modified = true := by
  obtain ⟨A, z, g1, g2, g3⟩ :=
    insertAfterAll_spec importLine retryImport (by decide) content.length content (le_refl _)
  have hcc : (convert_file content).newContent =
      insertAfterAll importLine retryImport content := by
    show convertContent content = _
    rw [convertContent, if_pos hm]
  have hlen : (convert_file content).newContent.length =
      content.length + N * retryImport.length := by
    rw [hcc, g2]
    conv_lhs => rw [pieces_len importLine retryImport z A]
    rw [← g1, ← hN, g3]
  refine ⟨⟨A, z, by rw [← g3, hN], g1, by rw [hcc, g2]⟩, hlen, ?_⟩
  show decide (convertContent content ≠ content) = true
  apply decide_eq_true
  intro heq
  have : (convert_file content).newContent = content := by
    show convertContent content = content
    exact heq
  have hr : retryImport.length = 50 := by decide
  rw [this, hr] at hlen
  omega

/-- Claim C10 witness: a file made of two adjacent copies of the import line
grows by exactly two copies of the retry-import line and is rewritten. -/
theorem c10_inserts_after_every_occurrence_witness :
    (¬ markerStr <:+: importLine ++ importLine ∧
      countOccurrences importLine (importLine ++ importLine) = 2 ∧ 1 ≤ 2) ∧
    ((convert_file (importLine ++ importLine)).newContent.length =
      (importLine ++ importLine).length + 2 * retryImport.length ∧
      (convert_file (importLine ++ importLine)).modified = true) :=
  ⟨⟨by decide, by decide, by decide⟩,
    (c10_inserts_after_every_occurrence (importLine ++ importLine) 2
      (by decide) (by decide) (by decide)).2⟩
